import Mathlib

/-!
Verification of the `ba_pipeline` behaviour-analysis pipeline.

Boolean per-frame series are embedded as `List Bool`, keypoint tables as explicit
column-label/row-value structures, and rational numbers stand in for the floating
point values of the source (all claim-relevant evaluations are exact).
-/

namespace BaPipeline

/-! ## Bout model

A `Bout` is a maximal contiguous run of a boolean per-frame condition being true,
recorded as inclusive `[start, stop]` frame indices with `dur = stop - start + 1`.
-/

structure Bout where
  start : Nat
  stop : Nat
  dur : Nat

/-- Run-length encoding helper: prepend one element to an encoded list,
extending the first run when the value matches. -/
def rleCons (b : Bool) : List (Bool × Nat) → List (Bool × Nat)
  | [] => [(b, 1)]
  | (c, n) :: rest => if b = c then (c, n + 1) :: rest else (b, 1) :: (c, n) :: rest

/-- Run-length encoding of a boolean series: the list of maximal runs
(value, length) in order. -/
def rle : List Bool → List (Bool × Nat)
  | [] => []
  | b :: l => rleCons b (rle l)

/-- Decode a run-length encoding back into the boolean series. -/
def unrle (rs : List (Bool × Nat)) : List Bool :=
  (rs.map (fun p => List.replicate p.2 p.1)).flatten

/-- Total number of frames described by a run list. -/
def runsLen (rs : List (Bool × Nat)) : Nat :=
  (rs.map (fun p => p.2)).sum

/-- Well-formed run lists: every run is non-empty and adjacent runs carry
different values (maximality). `rle` always produces such a list. -/
def WfRuns (rs : List (Bool × Nat)) : Prop :=
  (∀ p ∈ rs, 0 < p.2) ∧ rs.Chain' (fun p q => p.1 ≠ q.1)

/-- Emit the bouts (maximal true runs) described by a run list, with absolute
frame positions starting at `pos`. -/
def boutsFrom : Nat → List (Bool × Nat) → List Bout
  | _, [] => []
  | pos, (b, n) :: rest =>
    if b then ⟨pos, pos + n - 1, n⟩ :: boutsFrom (pos + n) rest
    else boutsFrom (pos + n) rest

/-- Modelled from the spec: `vect_2_bouts` of `behavysis_core`
(`BehaviourMixin.vect_2_bouts` / `BehavMixin.vect_2_bouts`), which is imported by
`classify_behaviours.py` and `analyse.py` but whose source is not part of this
repository.  Per spec sections 4.1, 3 and the worked example of section 8, it
returns the maximal contiguous true runs of a boolean series as bouts with
inclusive `start`/`stop` indices and `dur = stop - start + 1`. -/
def vect_2_bouts (l : List Bool) : List Bout :=
  boutsFrom 0 (rle l)

/-- Whether some bout of `bs` with duration strictly below `k` covers frame `i`. -/
def shortCover (bs : List Bout) (k i : Nat) : Bool :=
  bs.any (fun b => decide (b.dur < k) && decide (b.start ≤ i) && decide (i ≤ b.stop))

/-- Model of the pandas assignment `vect.loc[a:b] = 1`: set every frame of the
inclusive range `[a, b]` to true. -/
def fill_range (v : List Bool) (a b : Nat) : List Bool :=
  (List.range v.length).map (fun i => if a ≤ i ∧ i ≤ b then true else v.getD i false)

/-- Model of the pandas assignment `.loc[a:b] = 0`: set every frame of the
inclusive range `[a, b]` to false. -/
def zero_range (v : List Bool) (a b : Nat) : List Bool :=
  (List.range v.length).map (fun i => if a ≤ i ∧ i ≤ b then false else v.getD i false)

/-- Embedding of `merge_bouts` (`classify_behaviours.py`): extract the bouts of
the complement of `vect` and, for every such gap bout whose duration is strictly
below `min_window_frames`, fill its whole inclusive range with true. -/
def merge_bouts (vect : List Bool) (min_window_frames : Nat) : List Bool :=
  (vect_2_bouts (vect.map not)).foldl
    (fun v row => if row.dur < min_window_frames then fill_range v row.start row.stop else v)
    vect

/-- Embedding of the bout-duration filter of `Analyse.freezing` (`analyse.py`):
extract the bouts of the frozen flag and reset every bout whose duration is
strictly below `window_frames` to not-frozen over its whole inclusive range. -/
def freezing_filter (flag : List Bool) (window_frames : Nat) : List Bool :=
  (vect_2_bouts flag).foldl
    (fun v row => if row.dur < window_frames then zero_range v row.start row.stop else v)
    flag

/-- Length of the maximal run of the value `v` containing position `i`:
the count of consecutive `v`s extending forward from `i` plus the count
extending backward from `i - 1`. -/
def runLenFrom (v : Bool) (s : List Bool) (i : Nat) : Nat :=
  ((s.drop i).takeWhile (· = v)).length + ((s.take i).reverse.takeWhile (· = v)).length

/-! ## Basic facts about ranges, fills and folds -/

theorem fill_range_length (v : List Bool) (a b : Nat) :
    (fill_range v a b).length = v.length := by
  simp [fill_range]

theorem zero_range_length (v : List Bool) (a b : Nat) :
    (zero_range v a b).length = v.length := by
  simp [zero_range]

theorem fill_range_getD (v : List Bool) (a b i : Nat) (h : i < v.length) :
    (fill_range v a b).getD i false =
      if a ≤ i ∧ i ≤ b then true else v.getD i false := by
  have h' : i < (fill_range v a b).length := by rw [fill_range_length]; exact h
  rw [List.getD_eq_getElem _ _ h']
  simp only [fill_range]
  rw [List.getElem_map, List.getElem_range]

theorem zero_range_getD (v : List Bool) (a b i : Nat) (h : i < v.length) :
    (zero_range v a b).getD i false =
      if a ≤ i ∧ i ≤ b then false else v.getD i false := by
  have h' : i < (zero_range v a b).length := by rw [zero_range_length]; exact h
  rw [List.getD_eq_getElem _ _ h']
  simp only [zero_range]
  rw [List.getElem_map, List.getElem_range]

theorem merge_fold_length (bs : List Bout) (k : Nat) (v : List Bool) :
    (bs.foldl (fun v row => if row.dur < k then fill_range v row.start row.stop else v)
      v).length = v.length := by
  induction bs generalizing v with
  | nil => rfl
  | cons b bs ih =>
    simp only [List.foldl_cons]
    rw [ih]
    by_cases hb : b.dur < k <;> simp [hb, fill_range_length]

theorem zero_fold_length (bs : List Bout) (k : Nat) (v : List Bool) :
    (bs.foldl (fun v row => if row.dur < k then zero_range v row.start row.stop else v)
      v).length = v.length := by
  induction bs generalizing v with
  | nil => rfl
  | cons b bs ih =>
    simp only [List.foldl_cons]
    rw [ih]
    by_cases hb : b.dur < k <;> simp [hb, zero_range_length]

/-- Folding short-bout fills over a series sets a frame exactly when some short
bout covers it (order of the fills is irrelevant because they only set true). -/
theorem merge_fold_getD (bs : List Bout) (k : Nat) (v : List Bool) (i : Nat)
    (h : i < v.length) :
    (bs.foldl (fun v row => if row.dur < k then fill_range v row.start row.stop else v)
      v).getD i false = (v.getD i false || shortCover bs k i) := by
  induction bs generalizing v with
  | nil => simp [shortCover]
  | cons b bs ih =>
    simp only [List.foldl_cons]
    have hstep : i < (if b.dur < k then fill_range v b.start b.stop else v).length := by
      by_cases hb : b.dur < k <;> simp [hb, fill_range_length, h]
    rw [ih _ hstep]
    by_cases hb : b.dur < k
    · simp only [hb, if_true]
      rw [fill_range_getD v _ _ i h]
      by_cases hab : b.start ≤ i ∧ i ≤ b.stop
      · simp [shortCover, hab.1, hab.2, hb]
      · have : ¬ (b.start ≤ i) ∨ ¬ (i ≤ b.stop) := by tauto
        rcases this with hh | hh <;>
          simp [shortCover, hb, hab, hh, Bool.or_assoc]
    · simp only [hb, if_false]
      simp [shortCover, hb, Bool.or_assoc]

/-- Folding short-bout resets over a series clears a frame exactly when some
short bout covers it. -/
theorem zero_fold_getD (bs : List Bout) (k : Nat) (v : List Bool) (i : Nat)
    (h : i < v.length) :
    (bs.foldl (fun v row => if row.dur < k then zero_range v row.start row.stop else v)
      v).getD i false = (v.getD i false && !(shortCover bs k i)) := by
  induction bs generalizing v with
  | nil => simp [shortCover]
  | cons b bs ih =>
    simp only [List.foldl_cons]
    have hstep : i < (if b.dur < k then zero_range v b.start b.stop else v).length := by
      by_cases hb : b.dur < k <;> simp [hb, zero_range_length, h]
    rw [ih _ hstep]
    by_cases hb : b.dur < k
    · simp only [hb, if_true]
      rw [zero_range_getD v _ _ i h]
      by_cases hab : b.start ≤ i ∧ i ≤ b.stop
      · simp [shortCover, hab.1, hab.2, hb]
      · have : ¬ (b.start ≤ i) ∨ ¬ (i ≤ b.stop) := by tauto
        rcases this with hh | hh <;>
          simp [shortCover, hb, hab, hh, Bool.and_assoc]
    · simp only [hb, if_false]
      simp [shortCover, hb, Bool.and_assoc]

theorem merge_bouts_length (s : List Bool) (k : Nat) :
    (merge_bouts s k).length = s.length := by
  simpa [merge_bouts] using merge_fold_length (vect_2_bouts (s.map not)) k s

theorem freezing_filter_length (s : List Bool) (k : Nat) :
    (freezing_filter s k).length = s.length := by
  simpa [freezing_filter] using zero_fold_length (vect_2_bouts s) k s

/-! ## Run-length encoding facts -/

theorem unrle_rleCons (b : Bool) (rs : List (Bool × Nat)) :
    unrle (rleCons b rs) = b :: unrle rs := by
  cases rs with
  | nil => simp [rleCons, unrle]
  | cons p rest =>
    obtain ⟨c, n⟩ := p
    by_cases hbc : b = c
    · subst hbc
      simp [rleCons, unrle, List.replicate_succ]
    · simp [rleCons, hbc, unrle]

theorem unrle_rle (l : List Bool) : unrle (rle l) = l := by
  induction l with
  | nil => simp [rle, unrle]
  | cons b l ih => rw [rle, unrle_rleCons, ih]

theorem unrle_length (rs : List (Bool × Nat)) : (unrle rs).length = runsLen rs := by
  induction rs with
  | nil => simp [unrle, runsLen]
  | cons p rest ih =>
    simp only [unrle, runsLen, List.map_cons, List.flatten_cons, List.length_append,
      List.length_replicate, List.sum_cons]
    simpa [unrle, runsLen] using congrArg (p.2 + ·) ih

theorem runsLen_rle (l : List Bool) : runsLen (rle l) = l.length := by
  rw [← unrle_length, unrle_rle]

theorem wfRuns_rleCons (b : Bool) (rs : List (Bool × Nat)) (h : WfRuns rs) :
    WfRuns (rleCons b rs) := by
  obtain ⟨hpos, hchain⟩ := h
  cases rs with
  | nil =>
    refine ⟨?_, ?_⟩
    · intro p hp
      simp only [rleCons, List.mem_singleton] at hp
      simp [hp]
    · simp [rleCons]
  | cons p rest =>
    obtain ⟨c, n⟩ := p
    by_cases hbc : b = c
    · subst hbc
      refine ⟨?_, ?_⟩
      · intro q hq
        simp only [rleCons, if_pos rfl] at hq
        rcases List.mem_cons.mp hq with hq | hq
        · simp [hq]
        · exact hpos q (List.mem_cons_of_mem _ hq)
      · simp only [rleCons, if_pos rfl, if_true]
        rw [List.chain'_cons'] at hchain ⊢
        exact ⟨fun q hq => hchain.1 q hq, hchain.2⟩
    · refine ⟨?_, ?_⟩
      · intro q hq
        simp only [rleCons, if_neg hbc] at hq
        rcases List.mem_cons.mp hq with hq | hq
        · simp [hq]
        · exact hpos q hq
      · simp only [rleCons, if_neg hbc]
        exact List.Chain'.cons hbc hchain

theorem wfRuns_rle (l : List Bool) : WfRuns (rle l) := by
  induction l with
  | nil =>
    exact ⟨by intro p hp; simp [rle] at hp, by simp [rle]⟩
  | cons b l ih => exact wfRuns_rleCons b (rle l) ih

/-- Every bout emitted from position `pos` starts at or after `pos`. -/
theorem boutsFrom_start_le (rs : List (Bool × Nat)) :
    ∀ pos, ∀ bout ∈ boutsFrom pos rs, pos ≤ bout.start := by
  induction rs with
  | nil => intro pos bout h; simp [boutsFrom] at h
  | cons p rest ih =>
    intro pos bout h
    obtain ⟨b, n⟩ := p
    cases b with
    | true =>
      simp only [boutsFrom, if_pos rfl, if_true] at h
      rcases List.mem_cons.mp h with h | h
      · simp [h]
      · have := ih (pos + n) bout h
        omega
    | false =>
      simp only [boutsFrom, Bool.false_eq_true, if_false] at h
      have := ih (pos + n) bout h
      omega

/-! ## Run length at a position -/

theorem takeWhile_eq_val_replicate (v : Bool) (n : Nat) :
    (List.replicate n v).takeWhile (· = v) = List.replicate n v := by
  induction n with
  | zero => rfl
  | succ m ih => simp [List.replicate_succ, List.takeWhile_cons, ih]

theorem takeWhile_ne_head (v x : Bool) (t : List Bool) (hx : x ≠ v) :
    (x :: t).takeWhile (· = v) = [] := by
  simp [List.takeWhile_cons, hx]

theorem takeWhile_head_none (v : Bool) (t : List Bool)
    (hAlt : ∀ x, t.head? = some x → x ≠ v) :
    t.takeWhile (· = v) = [] := by
  cases t with
  | nil => rfl
  | cons x xs => exact takeWhile_ne_head v x xs (hAlt x rfl)

/-- Inside the leading run of a series the run length at any covered position is
the length of that run. -/
theorem runLenFrom_replicate_left (v : Bool) (n : Nat) (t : List Bool) (i : Nat)
    (hi : i < n) (hAlt : ∀ x, t.head? = some x → x ≠ v) :
    runLenFrom v (List.replicate n v ++ t) i = n := by
  have hlen : (List.replicate n v).length = n := List.length_replicate n v
  have hfwd : ((List.replicate n v ++ t).drop i).takeWhile (· = v) =
      List.replicate (n - i) v := by
    rw [List.drop_append_of_le_length (by omega), List.drop_replicate]
    rw [List.takeWhile_append, takeWhile_eq_val_replicate]
    simp [takeWhile_head_none v t hAlt]
  have hbwd : ((List.replicate n v ++ t).take i).reverse.takeWhile (· = v) =
      List.replicate i v := by
    rw [List.take_append_of_le_length (by omega), List.take_replicate]
    have : min i n = i := by omega
    rw [this, List.reverse_replicate, takeWhile_eq_val_replicate]
  rw [runLenFrom, hfwd, hbwd]
  simp only [List.length_replicate]
  omega

/-- Dropping a leading false run does not change the true-run length at any
later position. -/
theorem runLenFrom_true_drop_false (n : Nat) (t : List Bool) (j : Nat) :
    runLenFrom true (List.replicate n false ++ t) (n + j) = runLenFrom true t j := by
  have hlen : (List.replicate n false).length = n := List.length_replicate n false
  have hfwd : (List.replicate n false ++ t).drop (n + j) = t.drop j := by
    have h0 : (List.replicate n false ++ t).drop ((List.replicate n false).length + j) =
        t.drop j := List.drop_append j
    rwa [hlen] at h0
  have htake : (List.replicate n false ++ t).take (n + j) =
      List.replicate n false ++ t.take j := by
    have h0 : (List.replicate n false ++ t).take ((List.replicate n false).length + j) =
        List.replicate n false ++ t.take j := List.take_append j
    rwa [hlen] at h0
  rw [runLenFrom, runLenFrom, hfwd, htake, List.reverse_append, List.reverse_replicate,
    List.takeWhile_append]
  by_cases hall : (((t.take j).reverse).takeWhile (· = true)).length = (t.take j).reverse.length
  · rw [if_pos hall]
    have : (List.replicate n false).takeWhile (· = true) = [] := by
      cases n with
      | zero => rfl
      | succ m => exact takeWhile_ne_head true false _ (by simp)
    rw [this, List.append_nil]
    omega
  · rw [if_neg hall]

/-- Dropping a leading true run does not change the true-run length at a later
position, as long as a false frame separates the position from the leading run. -/
theorem runLenFrom_true_drop_true (n : Nat) (t : List Bool) (j : Nat)
    (hj : 1 ≤ j) (h0 : t.head? = some false) :
    runLenFrom true (List.replicate n true ++ t) (n + j) = runLenFrom true t j := by
  have hlen : (List.replicate n true).length = n := List.length_replicate n true
  have hfwd : (List.replicate n true ++ t).drop (n + j) = t.drop j := by
    have h0 : (List.replicate n true ++ t).drop ((List.replicate n true).length + j) =
        t.drop j := List.drop_append j
    rwa [hlen] at h0
  have htake : (List.replicate n true ++ t).take (n + j) =
      List.replicate n true ++ t.take j := by
    have h0 : (List.replicate n true ++ t).take ((List.replicate n true).length + j) =
        List.replicate n true ++ t.take j := List.take_append j
    rwa [hlen] at h0
  rw [runLenFrom, runLenFrom, hfwd, htake, List.reverse_append, List.reverse_replicate,
    List.takeWhile_append]
  have hmem : (false : Bool) ∈ (t.take j).reverse := by
    cases t with
    | nil => simp at h0
    | cons x xs =>
      have hx : x = false := by simpa using h0
      subst hx
      cases j with
      | zero => omega
      | succ m => simp [List.take_succ_cons]
  have hall : ¬ (((t.take j).reverse).takeWhile (· = true)).length =
      (t.take j).reverse.length := by
    intro hall
    have hsub : ((t.take j).reverse.takeWhile (· = true)).Sublist (t.take j).reverse :=
      List.takeWhile_sublist _
    have := hsub.eq_of_length hall
    have hfalse := List.mem_takeWhile_imp (this ▸ hmem)
    simp at hfalse
  rw [if_neg hall]

theorem getD_append_add (l t : List Bool) (j : Nat) (d : Bool) :
    (l ++ t).getD (l.length + j) d = t.getD j d := by
  rcases Nat.lt_or_ge j t.length with h | h
  · rw [List.getD_eq_getElem _ _ (by simp; omega), List.getD_eq_getElem _ _ h]
    rw [List.getElem_append_right (by omega)]
    congr 1
    omega
  · rw [List.getD_eq_default _ _ (by simp; omega), List.getD_eq_default _ _ h]

theorem getD_replicate_left (n : Nat) (b d : Bool) (t : List Bool) (j : Nat) (h : j < n) :
    (List.replicate n b ++ t).getD j d = b := by
  rw [List.getD_append _ _ _ _ (by simpa using h)]
  rw [List.getD_eq_getElem _ _ (by simpa using h)]
  exact List.getElem_replicate _ _

theorem unrle_cons_eq (b : Bool) (n : Nat) (rest : List (Bool × Nat)) :
    unrle ((b, n) :: rest) = List.replicate n b ++ unrle rest := by
  simp [unrle]

theorem runsLen_cons (b : Bool) (n : Nat) (rest : List (Bool × Nat)) :
    runsLen ((b, n) :: rest) = n + runsLen rest := by
  simp [runsLen]

/-- Characterisation of short-bout coverage: a bout of duration below `k` drawn
from the run list covers absolute frame `pos + j` exactly when frame `j` carries
the value true and the maximal true run containing it is shorter than `k`. -/
theorem shortCover_boutsFrom (rs : List (Bool × Nat)) (hwf : WfRuns rs) :
    ∀ pos k j, j < runsLen rs →
      (shortCover (boutsFrom pos rs) k (pos + j) = true ↔
        ((unrle rs).getD j false = true ∧ runLenFrom true (unrle rs) j < k)) := by
  induction rs with
  | nil =>
    intro pos k j hj
    simp [runsLen] at hj
  | cons p rest ih =>
    intro pos k j hj
    obtain ⟨b, n⟩ := p
    have hn : 0 < n := hwf.1 (b, n) (List.mem_cons_self _ _)
    have hwf' : WfRuns rest :=
      ⟨fun q hq => hwf.1 q (List.mem_cons_of_mem _ hq), hwf.2.tail⟩
    have hhead : ∀ y ∈ rest.head?, b ≠ y.1 := (List.chain'_cons'.mp hwf.2).1
    have hAlt : ∀ x, (unrle rest).head? = some x → x ≠ b := by
      intro x hx
      cases rest with
      | nil => simp [unrle] at hx
      | cons q r' =>
        obtain ⟨c, m⟩ := q
        have hm : 0 < m := hwf'.1 (c, m) (List.mem_cons_self _ _)
        have hc : (unrle ((c, m) :: r')).head? = some c := by
          cases m with
          | zero => omega
          | succ m' => simp [unrle, List.replicate_succ]
        rw [hc] at hx
        injection hx with hx
        subst hx
        exact Ne.symm (hhead (c, m) rfl)
    have htail_far : ∀ i, i < pos + n →
        shortCover (boutsFrom (pos + n) rest) k i = false := by
      intro i hi
      rw [shortCover, List.any_eq_false]
      intro bout hbout
      have := boutsFrom_start_le rest (pos + n) bout hbout
      simp only [Bool.and_eq_true, decide_eq_true_eq, not_and]
      intro _ hstart
      omega
    rw [unrle_cons_eq, runsLen_cons] at *
    rcases Nat.lt_or_ge j n with hjn | hjn
    · -- j lies in the leading run
      have hget : (List.replicate n b ++ unrle rest).getD j false = b :=
        getD_replicate_left n b false _ j hjn
      cases b with
      | false =>
        have hsc : shortCover (boutsFrom pos ((false, n) :: rest)) k (pos + j) = false := by
          simp only [boutsFrom, Bool.false_eq_true, if_false]
          exact htail_far _ (by omega)
        rw [hsc, hget]
        simp
      | true =>
        have hrun : runLenFrom true (List.replicate n true ++ unrle rest) j = n :=
          runLenFrom_replicate_left true n (unrle rest) j hjn hAlt
        have hsc : shortCover (boutsFrom pos ((true, n) :: rest)) k (pos + j) =
            decide (n < k) := by
          simp only [boutsFrom, if_pos rfl, if_true]
          rw [shortCover, List.any_cons]
          have h1 : (decide (pos ≤ pos + j)) = true := by simp
          have h2 : (decide (pos + j ≤ pos + n - 1)) = true := by
            simp only [decide_eq_true_eq]
            omega
          have h3 : shortCover (boutsFrom (pos + n) rest) k (pos + j) = false :=
            htail_far _ (by omega)
          rw [shortCover] at h3
          simp [h1, h2, h3]
        rw [hsc, hget, hrun]
        simp
    · -- j lies beyond the leading run
      obtain ⟨j', rfl⟩ : ∃ j', j = n + j' := ⟨j - n, by omega⟩
      have hj' : j' < runsLen rest := by omega
      have hget : (List.replicate n b ++ unrle rest).getD (n + j') false =
          (unrle rest).getD j' false := by
        have := getD_append_add (List.replicate n b) (unrle rest) j' false
        rwa [List.length_replicate] at this
      have hrw : pos + (n + j') = (pos + n) + j' := by omega
      have htail : shortCover (boutsFrom pos ((b, n) :: rest)) k (pos + (n + j')) =
          shortCover (boutsFrom (pos + n) rest) k ((pos + n) + j') := by
        cases b with
        | false =>
          simp only [boutsFrom, Bool.false_eq_true, if_false]
          rw [hrw]
        | true =>
          simp only [boutsFrom, if_pos rfl, if_true]
          rw [shortCover, List.any_cons, shortCover, hrw]
          have h2 : (decide (pos + n + j' ≤ pos + n - 1)) = false := by
            simp only [decide_eq_false_iff_not]
            omega
          simp [h2]
      rw [htail, hget, ih hwf' (pos + n) k j' hj']
      rcases Bool.eq_false_or_eq_true ((unrle rest).getD j' false) with hval | hval
      · have hrun : runLenFrom true (List.replicate n b ++ unrle rest) (n + j') =
            runLenFrom true (unrle rest) j' := by
          cases b with
          | false => exact runLenFrom_true_drop_false n (unrle rest) j'
          | true =>
            have hne : unrle rest ≠ [] := by
              intro hnil
              rw [← unrle_length] at hj'
              simp [hnil] at hj'
            obtain ⟨x, hx⟩ : ∃ x, (unrle rest).head? = some x := by
              cases hh : unrle rest with
              | nil => exact absurd hh hne
              | cons y ys => exact ⟨y, rfl⟩
            have hxf : x = false := by
              have := hAlt x hx
              cases x with
              | false => rfl
              | true => exact absurd rfl this
            subst hxf
            have hj1 : 1 ≤ j' := by
              by_contra hj0
              have hj0' : j' = 0 := by omega
              subst hj0'
              cases hh : unrle rest with
              | nil => exact hne hh
              | cons y ys =>
                rw [hh] at hx hval
                injection hx with hx
                subst hx
                simp at hval
            exact runLenFrom_true_drop_true n (unrle rest) j' hj1 hx
        rw [hrun, hval]
      · rw [hval]
        simp

theorem getD_map_not (s : List Bool) (i : Nat) (h : i < s.length) :
    (s.map not).getD i false = !(s.getD i false) := by
  rw [List.getD_eq_getElem _ _ (by simpa using h), List.getD_eq_getElem _ _ h,
    List.getElem_map]

theorem runLenFrom_map_not (s : List Bool) (i : Nat) :
    runLenFrom true (s.map not) i = runLenFrom false s i := by
  have hpe : ((fun x => decide (x = true)) ∘ not) = (fun x : Bool => decide (x = false)) := by
    funext x
    cases x <;> rfl
  have hp : ∀ l : List Bool,
      ((l.map not).takeWhile (· = true)).length = (l.takeWhile (· = false)).length := by
    intro l
    rw [List.takeWhile_map, List.length_map, hpe]
  rw [runLenFrom, runLenFrom, ← List.map_drop, ← List.map_take, ← List.map_reverse,
    hp, hp]

/-- Pointwise description of `merge_bouts`: a frame stays true, and a false frame
becomes true exactly when the maximal gap run containing it is shorter than the
threshold. -/
theorem merge_bouts_getD (s : List Bool) (k i : Nat) (h : i < s.length) :
    (merge_bouts s k).getD i false =
      (s.getD i false || (!(s.getD i false) && decide (runLenFrom false s i < k))) := by
  rw [merge_bouts, merge_fold_getD _ k s i h]
  have hchar := shortCover_boutsFrom (rle (s.map not)) (wfRuns_rle _) 0 k i
    (by rw [runsLen_rle]; simpa using h)
  rw [unrle_rle] at hchar
  simp only [Nat.zero_add] at hchar
  rw [getD_map_not s i h, runLenFrom_map_not s i] at hchar
  rw [vect_2_bouts]
  rcases Bool.eq_false_or_eq_true (s.getD i false) with hv | hv
  · rw [hv]
    simp
  · rw [hv]
    by_cases hk : runLenFrom false s i < k
    · have hsc : shortCover (boutsFrom 0 (rle (s.map not))) k i = true := by
        rw [hchar, hv]
        simpa using hk
      rw [hsc]
      simp [hk]
    · have hsc : shortCover (boutsFrom 0 (rle (s.map not))) k i = false := by
        rcases Bool.eq_false_or_eq_true
          (shortCover (boutsFrom 0 (rle (s.map not))) k i) with hsc | hsc
        · exact absurd (hchar.mp hsc).2 hk
        · exact hsc
      rw [hsc]
      simp [hk]

/-- Pointwise description of the freezing bout filter: a frame stays frozen
exactly when it was frozen and the maximal frozen run containing it reaches the
window threshold. -/
theorem freezing_filter_getD (flag : List Bool) (k i : Nat) (h : i < flag.length) :
    (freezing_filter flag k).getD i false =
      (flag.getD i false && !(decide (runLenFrom true flag i < k))) := by
  rw [freezing_filter, zero_fold_getD _ k flag i h]
  have hchar := shortCover_boutsFrom (rle flag) (wfRuns_rle _) 0 k i
    (by rw [runsLen_rle]; exact h)
  rw [unrle_rle] at hchar
  simp only [Nat.zero_add] at hchar
  rw [vect_2_bouts]
  rcases Bool.eq_false_or_eq_true (flag.getD i false) with hv | hv
  · rw [hv]
    by_cases hk : runLenFrom true flag i < k
    · have : shortCover (boutsFrom 0 (rle flag)) k i = true := by
        rw [hchar, hv]
        simpa using hk
      rw [this]
      simp [hk]
    · have : shortCover (boutsFrom 0 (rle flag)) k i = false := by
        rcases Bool.eq_false_or_eq_true
          (shortCover (boutsFrom 0 (rle flag)) k i) with hsc | hsc
        · exact absurd (hchar.mp hsc).2 hk
        · exact hsc
      rw [this]
      simp [hk]
  · rw [hv]
    simp

/-! ## Further run-length facts, towards idempotence -/

theorem takeWhile_elem (p : Bool → Bool) (dflt : Bool) :
    ∀ (l : List Bool) (d : Nat), d < (l.takeWhile p).length → p (l.getD d dflt) = true := by
  intro l
  induction l with
  | nil => intro d hd; simp at hd
  | cons x xs ih =>
    intro d hd
    cases hp : p x with
    | false =>
      have hnil : (x :: xs).takeWhile p = [] := by simp [List.takeWhile_cons, hp]
      rw [hnil] at hd
      simp at hd
    | true =>
      have hcons : (x :: xs).takeWhile p = x :: xs.takeWhile p := by
        simp [List.takeWhile_cons, hp]
      rw [hcons] at hd
      cases d with
      | zero => simpa using hp
      | succ m =>
        simp only [List.length_cons] at hd
        exact ih m (by omega)

theorem takeWhile_length_ge (p : Bool → Bool) (dflt : Bool) :
    ∀ (l : List Bool) (n : Nat), n ≤ l.length →
      (∀ d, d < n → p (l.getD d dflt) = true) → n ≤ (l.takeWhile p).length := by
  intro l
  induction l with
  | nil => intro n hn _; simpa using hn
  | cons x xs ih =>
    intro n hn hall
    cases n with
    | zero => omega
    | succ m =>
      have hx : p x = true := by simpa using hall 0 (by omega)
      have hcons : (x :: xs).takeWhile p = x :: xs.takeWhile p := by
        simp [List.takeWhile_cons, hx]
      rw [hcons]
      simp only [List.length_cons]
      have := ih m (by simpa using hn) (fun d hd => by simpa using hall (d + 1) (by omega))
      omega

theorem getD_drop_add (s : List Bool) (i d : Nat) (dflt : Bool) :
    (s.drop i).getD d dflt = s.getD (i + d) dflt := by
  rcases Nat.lt_or_ge (i + d) s.length with h | h
  · rw [List.getD_eq_getElem _ _ (by simp; omega), List.getD_eq_getElem _ _ h,
      List.getElem_drop]
  · rw [List.getD_eq_default _ _ (by simp; omega), List.getD_eq_default _ _ h]

theorem getD_reverse_take (s : List Bool) (i d : Nat) (dflt : Bool)
    (hd : d < i) (hi : i ≤ s.length) :
    ((s.take i).reverse).getD d dflt = s.getD (i - 1 - d) dflt := by
  have hlen : (s.take i).length = i := by
    simp
    omega
  rw [List.getD_eq_getElem _ _ (by simp [hlen]; omega),
    List.getD_eq_getElem _ _ (by omega), List.getElem_reverse]
  rw [List.getElem_take]
  congr 1
  omega

theorem runLenFrom_false_succ (s : List Bool) (i : Nat) (hi : i < s.length)
    (hf : s.getD i false = false) :
    runLenFrom false s (i + 1) = runLenFrom false s i := by
  have hdrop : s.drop i = false :: s.drop (i + 1) := by
    rw [← hf, List.getD_eq_getElem _ _ hi]
    exact List.drop_eq_getElem_cons hi
  have htake : s.take (i + 1) = s.take i ++ [false] := by
    rw [← hf, List.getD_eq_getElem _ _ hi, List.take_succ, List.getElem?_eq_getElem hi]
    rfl
  have hfwd : ((s.drop i).takeWhile (· = false)).length =
      ((s.drop (i + 1)).takeWhile (· = false)).length + 1 := by
    rw [hdrop, List.takeWhile_cons]
    simp
  have hbwd : ((s.take (i + 1)).reverse.takeWhile (· = false)).length =
      ((s.take i).reverse.takeWhile (· = false)).length + 1 := by
    rw [htake, List.reverse_append]
    simp [List.takeWhile_cons]
  rw [runLenFrom, runLenFrom, hfwd, hbwd]
  omega

theorem runLenFrom_false_congr (s : List Bool) (i d : Nat)
    (h : ∀ e, e < d → i + e < s.length ∧ s.getD (i + e) false = false) :
    runLenFrom false s (i + d) = runLenFrom false s i := by
  induction d with
  | zero => rfl
  | succ m ih =>
    have h1 := h m (by omega)
    have : i + (m + 1) = (i + m) + 1 := by omega
    rw [this, runLenFrom_false_succ s (i + m) h1.1 h1.2]
    exact ih (fun e he => h e (by omega))

/-- A false frame sitting in a gap at least as long as the threshold stays false
under `merge_bouts`. -/
theorem merge_keeps_long_gap (s : List Bool) (k i : Nat) (hi : i < s.length)
    (hf : s.getD i false = false) (hk : k ≤ runLenFrom false s i) :
    (merge_bouts s k).getD i false = false := by
  rw [merge_bouts_getD s k i hi, hf]
  simp [Nat.not_lt.mpr hk]

/-- The gap containing a surviving false frame can only grow under merging. -/
theorem runLenFrom_merge_ge (s : List Bool) (k i : Nat) (hi : i < s.length)
    (hk : k ≤ runLenFrom false s i) :
    k ≤ runLenFrom false (merge_bouts s k) i := by
  set m := merge_bouts s k with hm
  have hmlen : m.length = s.length := merge_bouts_length s k
  set F := ((s.drop i).takeWhile (· = false)).length with hF
  set B := ((s.take i).reverse.takeWhile (· = false)).length with hB
  have hFd : F ≤ (s.drop i).length := (List.takeWhile_sublist _).length_le
  have hBd : B ≤ i := by
    have : B ≤ ((s.take i).reverse).length := (List.takeWhile_sublist _).length_le
    simp at this
    omega
  have hsfalse : ∀ d, d < F → s.getD (i + d) false = false := by
    intro d hd
    have := takeWhile_elem (· = false) false (s.drop i) d hd
    rw [getD_drop_add] at this
    simpa using this
  have hsrun : ∀ d, d < F → k ≤ runLenFrom false s (i + d) := by
    intro d hd
    rw [runLenFrom_false_congr s i d
      (fun e he => ⟨by simp at hFd; omega, hsfalse e (by omega)⟩)]
    exact hk
  have hmfwd : F ≤ ((m.drop i).takeWhile (· = false)).length := by
    apply takeWhile_length_ge _ false
    · simp at hFd ⊢
      omega
    · intro d hd
      rw [getD_drop_add]
      have hidx : i + d < s.length := by
        simp at hFd
        omega
      have := merge_keeps_long_gap s k (i + d) hidx (hsfalse d hd) (hsrun d hd)
      simpa [← hm] using this
  have hsfalseb : ∀ d, d < B → s.getD (i - 1 - d) false = false := by
    intro d hd
    have := takeWhile_elem (· = false) false ((s.take i).reverse) d hd
    rw [getD_reverse_take s i d false (by omega) (by omega)] at this
    simpa using this
  have hsrunb : ∀ d, d < B → k ≤ runLenFrom false s (i - 1 - d) := by
    intro d hd
    have hsum : (i - 1 - d) + (d + 1) = i := by omega
    have := runLenFrom_false_congr s (i - 1 - d) (d + 1) (fun e he => by
      constructor
      · omega
      · have heq : i - 1 - d + e = i - 1 - (d - e) := by omega
        rw [heq]
        exact hsfalseb (d - e) (by omega))
    rw [hsum] at this
    rw [← this]
    exact hk
  have hmbwd : B ≤ ((m.take i).reverse.takeWhile (· = false)).length := by
    apply takeWhile_length_ge _ false
    · simp
      omega
    · intro d hd
      rw [getD_reverse_take m i d false (by omega) (by omega)]
      have hidx : i - 1 - d < s.length := by omega
      have := merge_keeps_long_gap s k (i - 1 - d) hidx (hsfalseb d hd) (hsrunb d hd)
      simpa [← hm] using this
  have : runLenFrom false s i = F + B := rfl
  rw [runLenFrom]
  omega

/-! ## Claim theorems for the bout-merging logic -/

/-- Claim C1: for every boolean per-frame series and threshold, `merge_bouts`
flips to true exactly the frames lying in maximal false runs (gaps) shorter than
`min_gap_frames`, leaving longer gaps and originally-true frames unchanged; in
particular on `[0,0,1,1,1,0,0,1,0,1,1,1,1]` with threshold 2 the lone gap at
index 8 is merged and the length-2 gap at indices 5 and 6 is kept. -/
theorem merge_bouts_spec :
    (∀ (s : List Bool) (k i : Nat), i < s.length →
      (merge_bouts s k).getD i false =
        (s.getD i false || (!(s.getD i false) && decide (runLenFrom false s i < k)))) ∧
    merge_bouts
        [false, false, true, true, true, false, false, true, false, true, true, true, true] 2 =
      [false, false, true, true, true, false, false, true, true, true, true, true, true] :=
  ⟨fun s k i h => merge_bouts_getD s k i h, by decide⟩

/-- Witness for C1 at a concrete series, threshold and frame. -/
theorem merge_bouts_spec_witness :
    (merge_bouts [false, true, false, false] 2).getD 0 false =
      (([false, true, false, false] : List Bool).getD 0 false ||
        (!(([false, true, false, false] : List Bool).getD 0 false) &&
          decide (runLenFrom false [false, true, false, false] 0 < 2))) :=
  merge_bouts_spec.1 [false, true, false, false] 2 0 (by decide)

/-- Claim C4: gap-merging is idempotent at a fixed threshold. -/
theorem merge_bouts_idempotent :
    ∀ (s : List Bool) (k : Nat), merge_bouts (merge_bouts s k) k = merge_bouts s k := by
  intro s k
  have hlen1 : (merge_bouts s k).length = s.length := merge_bouts_length s k
  have hlen : (merge_bouts (merge_bouts s k) k).length = (merge_bouts s k).length :=
    merge_bouts_length _ k
  apply List.ext_getElem hlen
  intro i h1 h2
  have hi : i < s.length := by omega
  rw [← List.getD_eq_getElem _ false h1, ← List.getD_eq_getElem _ false h2]
  rw [merge_bouts_getD (merge_bouts s k) k i (by omega)]
  rcases Bool.eq_false_or_eq_true ((merge_bouts s k).getD i false) with hv | hv
  · rw [hv]
    simp
  · rw [hv]
    have hs := merge_bouts_getD s k i hi
    rw [hv] at hs
    have hsf : s.getD i false = false := by
      rcases Bool.eq_false_or_eq_true (s.getD i false) with hsv | hsv
      · rw [hsv] at hs
        simp at hs
      · exact hsv
    rw [hsf] at hs
    have hnk : ¬ runLenFrom false s i < k := by
      intro hlt
      simp [hlt] at hs
    have := runLenFrom_merge_ge s k i hi (by omega)
    simp [Nat.not_lt.mpr this]

/-- Claim C9: in the freezing operation, after the per-frame frozen flag is
computed, every maximal frozen run shorter than `window_frames` is reset to
not-frozen over its whole inclusive range and longer runs are kept; in
particular a frozen run over frames 10 to 14 (duration 5) is discarded when
`window_frames` is 6. -/
theorem freezing_filter_spec :
    (∀ (flag : List Bool) (k i : Nat), i < flag.length →
      (freezing_filter flag k).getD i false =
        (flag.getD i false && !(decide (runLenFrom true flag i < k)))) ∧
    freezing_filter
        (List.replicate 10 false ++ List.replicate 5 true ++ List.replicate 5 false) 6 =
      List.replicate 20 false :=
  ⟨fun flag k i h => freezing_filter_getD flag k i h, by decide⟩

/-- Witness for C9 at a concrete flag series, window and frame. -/
theorem freezing_filter_spec_witness :
    (freezing_filter [true, true, false] 3).getD 0 false =
      (([true, true, false] : List Bool).getD 0 false &&
        !(decide (runLenFrom true [true, true, false] 0 < 3))) :=
  freezing_filter_spec.1 [true, true, false] 3 0 (by decide)

/-! ## Identity switching (`preprocess.py`)

A keypoint frame is grouped by individual: each individual label is paired with
its whole column block (all bodypart and coordinate values, in column order),
matching the row-wise block access `row.loc[header, indiv]` of the source.
-/

abbrev Row := List (String × List Rat)

/-- The column block of an individual in a frame (first matching label). -/
def blockOf (row : Row) (ind : String) : List Rat :=
  match row.find? (fun p => p.1 = ind) with
  | some p => p.2
  | none => []

/-- Assign a block to every slot of an individual, as the pandas assignment
`row[header, ind] = list(...)` does. -/
def setBlock (row : Row) (ind : String) (blk : List Rat) : Row :=
  row.map (fun p => if p.1 = ind then (ind, blk) else p)

/-- Embedding of the inner function `_f` of `switch_identities`
(`preprocess.py`): store the unmarked block, assign the marked block into the
unmarked slot, then assign the stored block into the marked slot. -/
def swapRow (marked unmarked : String) (row : Row) : Row :=
  let temp := blockOf row unmarked
  let row1 := setBlock row unmarked (blockOf row marked)
  setBlock row1 marked temp

/-- Embedding of `switch_identities` (`preprocess.py`): apply the row-wise swap
at every frame whose switch flag is true. -/
def switch_identities (df : List Row) (is_switch : List Bool)
    (marked unmarked : String) : List Row :=
  List.zipWith (fun row sw => if sw then swapRow marked unmarked row else row) df is_switch

/-- The combined per-entry effect of the two block assignments of `swapRow`. -/
def swapFn (marked unmarked : String) (mBlk uBlk : List Rat)
    (p : String × List Rat) : String × List Rat :=
  if p.1 = marked then (marked, uBlk) else if p.1 = unmarked then (unmarked, mBlk) else p

theorem swapRow_eq_map (m u : String) (row : Row) :
    swapRow m u row = row.map (swapFn m u (blockOf row m) (blockOf row u)) := by
  rw [swapRow]
  simp only [setBlock, List.map_map]
  congr 1
  funext p
  simp only [Function.comp_apply, swapFn]
  by_cases hum : u = m
  · subst hum
    by_cases hpu : p.1 = u
    · simp [hpu]
    · simp [hpu]
  · by_cases hpu : p.1 = u
    · have hpm : ¬ p.1 = m := by rw [hpu]; exact hum
      simp [hpu, hpm, hum]
    · by_cases hpm : p.1 = m
      · have hmu : ¬ m = u := fun h => hum h.symm
        simp [hpu, hpm, hmu]
      · simp [hpu, hpm]

theorem swapFn_fst (m u : String) (mBlk uBlk : List Rat) (p : String × List Rat) :
    (swapFn m u mBlk uBlk p).1 = p.1 := by
  rw [swapFn]
  by_cases hm : p.1 = m
  · simp [hm]
  · by_cases hu : p.1 = u
    · have hum : ¬ u = m := by rw [← hu]; exact hm
      simp [hm, hu, hum]
    · simp [hm, hu]

theorem blockOf_mem_nodup (row : Row) (p : String × List Rat) (hp : p ∈ row)
    (hnd : (row.map Prod.fst).Nodup) : blockOf row p.1 = p.2 := by
  induction row with
  | nil => simp at hp
  | cons q rest ih =>
    rcases List.mem_cons.mp hp with hq | hq
    · subst hq
      rw [blockOf, List.find?_cons_of_pos _ (by simp)]
    · have hne : q.1 ≠ p.1 := by
        intro heq
        have : p.1 ∈ rest.map Prod.fst := List.mem_map_of_mem Prod.fst hq
        rw [← heq] at this
        exact (List.nodup_cons.mp (by simpa using hnd)).1 this
      rw [blockOf, List.find?_cons_of_neg _ (by simp [hne])]
      have htl := ih hq ((List.nodup_cons.mp (by simpa using hnd)).2)
      rw [blockOf] at htl
      exact htl

theorem find?_map_label (row : Row) (f : String × List Rat → String × List Rat)
    (hf : ∀ p, (f p).1 = p.1) (c : String) :
    (row.map f).find? (fun p => p.1 = c) = (row.find? (fun p => p.1 = c)).map f := by
  induction row with
  | nil => rfl
  | cons q rest ih =>
    by_cases hc : q.1 = c
    · rw [List.map_cons, List.find?_cons_of_pos _ (by simp [hf, hc]),
        List.find?_cons_of_pos _ (by simp [hc])]
      rfl
    · rw [List.map_cons, List.find?_cons_of_neg _ (by simp [hf, hc]),
        List.find?_cons_of_neg _ (by simp [hc])]
      exact ih

theorem blockOf_map_swapFn (row : Row) (m u c : String) (mBlk uBlk : List Rat) :
    blockOf (row.map (swapFn m u mBlk uBlk)) c =
      match row.find? (fun p => p.1 = c) with
      | some q => (swapFn m u mBlk uBlk q).2
      | none => [] := by
  rw [blockOf, find?_map_label row _ (swapFn_fst m u mBlk uBlk) c]
  cases row.find? (fun p => p.1 = c) with
  | none => rfl
  | some q => rfl

theorem find?_label_of_mem (row : Row) (c : String) (hc : c ∈ row.map Prod.fst) :
    ∃ q, row.find? (fun p => p.1 = c) = some q ∧ q.1 = c := by
  induction row with
  | nil => simp at hc
  | cons p rest ih =>
    by_cases hp : p.1 = c
    · exact ⟨p, List.find?_cons_of_pos _ (by simp [hp]), hp⟩
    · have : c ∈ rest.map Prod.fst := by
        rw [List.map_cons] at hc
        rcases List.mem_cons.mp hc with h | h
        · exact absurd h.symm hp
        · exact h
      obtain ⟨q, hq1, hq2⟩ := ih this
      exact ⟨q, by rw [List.find?_cons_of_neg _ (by simp [hp])]; exact hq1, hq2⟩

/-- Columns of other individuals are untouched by the row swap. -/
theorem blockOf_swapRow_other (m u c : String) (row : Row)
    (hcm : c ≠ m) (hcu : c ≠ u) :
    blockOf (swapRow m u row) c = blockOf row c := by
  rw [swapRow_eq_map, blockOf_map_swapFn]
  cases hfind : row.find? (fun p => p.1 = c) with
  | none =>
    have hc : blockOf row c = [] := by rw [blockOf, hfind]
    rw [hc]
  | some q =>
    have hq : q.1 = c := by
      have := List.find?_some hfind
      simpa using this
    have hc : blockOf row c = q.2 := by rw [blockOf, hfind]
    rw [hc]
    have h1 : ¬ q.1 = m := by rw [hq]; exact hcm
    have h2 : ¬ q.1 = u := by rw [hq]; exact hcu
    simp [swapFn, h1, h2]

/-- The marked individual receives the unmarked block. -/
theorem blockOf_swapRow_marked (m u : String) (row : Row)
    (hm : m ∈ row.map Prod.fst) :
    blockOf (swapRow m u row) m = blockOf row u := by
  rw [swapRow_eq_map, blockOf_map_swapFn]
  obtain ⟨q, hq1, hq2⟩ := find?_label_of_mem row m hm
  rw [hq1]
  simp [swapFn, hq2]

/-- The unmarked individual receives the marked block. -/
theorem blockOf_swapRow_unmarked (m u : String) (row : Row)
    (hu : u ∈ row.map Prod.fst) :
    blockOf (swapRow m u row) u = blockOf row m := by
  rw [swapRow_eq_map, blockOf_map_swapFn]
  obtain ⟨q, hq1, hq2⟩ := find?_label_of_mem row u hu
  rw [hq1]
  by_cases hum : u = m
  · simp [swapFn, hq2, hum]
  · simp [swapFn, hq2, hum]

theorem swapRow_labels (m u : String) (row : Row) :
    (swapRow m u row).map Prod.fst = row.map Prod.fst := by
  rw [swapRow_eq_map, List.map_map]
  congr 1
  funext p
  exact swapFn_fst m u _ _ p

/-- Applying the row swap twice restores the frame, as long as both individuals
are present and the individual labels are unique in the frame. -/
theorem swapRow_involution (m u : String) (row : Row)
    (hnd : (row.map Prod.fst).Nodup)
    (hm : m ∈ row.map Prod.fst) (hu : u ∈ row.map Prod.fst) :
    swapRow m u (swapRow m u row) = row := by
  have h1 : blockOf (swapRow m u row) m = blockOf row u :=
    blockOf_swapRow_marked m u row hm
  have h2 : blockOf (swapRow m u row) u = blockOf row m :=
    blockOf_swapRow_unmarked m u row hu
  rw [swapRow_eq_map m u (swapRow m u row), h1, h2, swapRow_eq_map m u row,
    List.map_map]
  have : ∀ p ∈ row,
      (swapFn m u (blockOf row u) (blockOf row m) ∘ swapFn m u (blockOf row m)
        (blockOf row u)) p = p := by
    intro p hp
    simp only [Function.comp_apply, swapFn]
    by_cases hpm : p.1 = m
    · rw [if_pos hpm]
      simp only [if_pos rfl]
      have : blockOf row m = p.2 := by rw [← hpm]; exact blockOf_mem_nodup row p hp hnd
      rw [this, ← hpm]
      simp
    · rw [if_neg hpm]
      by_cases hpu : p.1 = u
      · rw [if_pos hpu]
        have hum : ¬ u = m := by rw [← hpu]; exact hpm
        simp only [if_neg hum, if_pos rfl]
        have : blockOf row u = p.2 := by rw [← hpu]; exact blockOf_mem_nodup row p hp hnd
        rw [this, ← hpu]
        simp
      · rw [if_neg hpu, if_neg hpm, if_neg hpu]
  rw [List.map_congr_left this]
  simp

theorem switch_identities_getD (df : List Row) (sw : List Bool) (m u : String)
    (hlen : sw.length = df.length) (i : Nat) (hi : i < df.length) :
    (switch_identities df sw m u).getD i [] =
      (if sw.getD i false then swapRow m u (df.getD i []) else df.getD i []) := by
  rw [switch_identities,
    List.getD_eq_getElem _ _ (by rw [List.length_zipWith]; omega),
    List.getElem_zipWith,
    ← List.getD_eq_getElem df ([] : Row) hi,
    ← List.getD_eq_getElem sw false (by omega)]

/-- A concrete one-frame table with three individuals, for the witnesses. -/
def exTable : List Row := [[("a", [(1 : Rat)]), ("b", [2]), ("c", [3])]]

/-- A concrete one-frame switch series, for the witnesses. -/
def exSwitch : List Bool := [true]

/-- Claim C2: applying `switch_identities` twice with the same switch series and
the same pair of individuals (both present in every frame, with unique
individual labels) returns the original table. -/
theorem switch_identities_involution (df : List Row) (sw : List Bool) (m u : String)
    (hlen : sw.length = df.length)
    (h : ∀ row ∈ df, (row.map Prod.fst).Nodup ∧
      m ∈ row.map Prod.fst ∧ u ∈ row.map Prod.fst) :
    switch_identities (switch_identities df sw m u) sw m u = df := by
  induction df generalizing sw with
  | nil =>
    cases sw with
    | nil => rfl
    | cons s sw' => simp at hlen
  | cons r df' ih =>
    cases sw with
    | nil => simp at hlen
    | cons s sw' =>
      have hr := h r (List.mem_cons_self r df')
      simp only [switch_identities, List.zipWith_cons_cons]
      congr 1
      · cases s with
        | false => simp
        | true =>
          simp only [if_true]
          exact swapRow_involution m u r hr.1 hr.2.1 hr.2.2
      · exact ih sw' (by simpa using hlen)
          (fun row hrow => h row (List.mem_cons_of_mem _ hrow))

/-- Witness for C2 at a concrete table, switch series and pair. -/
theorem switch_identities_involution_witness :
    switch_identities (switch_identities exTable exSwitch "a" "b") exSwitch "a" "b" =
      exTable :=
  switch_identities_involution exTable exSwitch "a" "b" (by decide) (by decide)

/-- Claim C7: the output of `switch_identities` agrees with the input at every
frame whose switch flag is false; at every frame it agrees with the input on
the columns of every individual other than the pair; and at switch-true frames
the pair's column blocks are exchanged. -/
theorem switch_identities_frame_effect (df : List Row) (sw : List Bool) (m u : String)
    (hlen : sw.length = df.length) :
    ∀ i, i < df.length →
      ((sw.getD i false = false →
        (switch_identities df sw m u).getD i [] = df.getD i []) ∧
      (∀ c, c ≠ m → c ≠ u →
        blockOf ((switch_identities df sw m u).getD i []) c =
          blockOf (df.getD i []) c) ∧
      (sw.getD i false = true →
        m ∈ (df.getD i []).map Prod.fst → u ∈ (df.getD i []).map Prod.fst →
        blockOf ((switch_identities df sw m u).getD i []) m =
          blockOf (df.getD i []) u ∧
        blockOf ((switch_identities df sw m u).getD i []) u =
          blockOf (df.getD i []) m)) := by
  intro i hi
  have hg := switch_identities_getD df sw m u hlen i hi
  refine ⟨?_, ?_, ?_⟩
  · intro hs
    rw [hg, hs]
    simp
  · intro c hcm hcu
    rw [hg]
    cases hs : sw.getD i false with
    | false => simp
    | true =>
      simp only [if_true]
      exact blockOf_swapRow_other m u c _ hcm hcu
  · intro hs hm hu
    rw [hg, hs]
    simp only [if_true]
    exact ⟨blockOf_swapRow_marked m u _ hm, blockOf_swapRow_unmarked m u _ hu⟩

/-- Witness for C7 at a concrete table, switch series and frame. -/
theorem switch_identities_frame_effect_witness :
    ((exSwitch.getD 0 false = false →
        (switch_identities exTable exSwitch "a" "b").getD 0 [] = exTable.getD 0 []) ∧
      (∀ c, c ≠ "a" → c ≠ "b" →
        blockOf ((switch_identities exTable exSwitch "a" "b").getD 0 []) c =
          blockOf (exTable.getD 0 []) c) ∧
      (exSwitch.getD 0 false = true →
        "a" ∈ (exTable.getD 0 []).map Prod.fst →
        "b" ∈ (exTable.getD 0 []).map Prod.fst →
        blockOf ((switch_identities exTable exSwitch "a" "b").getD 0 []) "a" =
          blockOf (exTable.getD 0 []) "b" ∧
        blockOf ((switch_identities exTable exSwitch "a" "b").getD 0 []) "b" =
          blockOf (exTable.getD 0 []) "a")) :=
  switch_identities_frame_effect exTable exSwitch "a" "b" (by decide) 0 (by decide)

/-! ## Windowed switch decision (`decice_switch`, `preprocess.py`) -/

/-- The trailing window of width `w` ending at frame `i`, as produced by pandas
`rolling(w, min_periods=1)`: the last `min w (i + 1)` frames up to `i`. -/
def windowAt (cur : List Bool) (w i : Nat) : List Bool :=
  (cur.take (i + 1)).drop (i + 1 - w)

/-- Model of `x.mode()[0]` on a 0/1-valued window: pandas `Series.mode` lists
the modal values in ascending order, so index 0 holds 0 (false) whenever false
is at least as frequent as true, and 1 (true) only on a strict majority. -/
def mode_first (l : List Bool) : Bool :=
  if (l.filter (fun x => x = true)).length ≤ (l.filter (fun x => x = false)).length
  then false else true

/-- The `current` column of `decice_switch`: per frame, the marked individual is
strictly farther from the marking than the unmarked one. -/
def decice_current (distMarked distUnmarked : List Rat) : List Bool :=
  List.zipWith (fun dm du => decide (du < dm)) distMarked distUnmarked

/-- The `rolling` column of `decice_switch`: rolling majority vote
(`mode()[0]`) of the current decision over a trailing window with
`min_periods=1`. -/
def decice_rolling (cur : List Bool) (w : Nat) : List Bool :=
  (List.range cur.length).map (fun i => mode_first (windowAt cur w i))

/-- Frame-to-bin assignment of the `binned` column: `np.arange` lays bin edges
at multiples of `w` and `pd.cut(..., include_lowest=True)` puts frame 0 into the
first bin and frame `i` into the bin whose upper edge is the least multiple of
`w` at or above `i`. -/
def binOf (w i : Nat) : Nat :=
  if i = 0 then 1 else (i + w - 1) / w

/-- The `binned` column of `decice_switch`: every frame receives the first modal
value of the current series over all frames of its fixed bin. -/
def decice_binned (cur : List Bool) (w : Nat) : List Bool :=
  (List.range cur.length).map (fun i =>
    mode_first (((List.range cur.length).filter (fun j => binOf w j = binOf w i)).map
      (fun j => cur.getD j false)))

structure SwitchDF where
  current : List Bool
  rolling : List Bool
  binned : List Bool

/-- Embedding of `decice_switch` (`preprocess.py`), taking the two distance
columns of the aggregated table as input. -/
def decice_switch (distMarked distUnmarked : List Rat) (window_frames : Nat) :
    SwitchDF :=
  let cur := decice_current distMarked distUnmarked
  ⟨cur, decice_rolling cur window_frames, decice_binned cur window_frames⟩

theorem mode_first_single (x : Bool) : mode_first [x] = x := by
  cases x <;> rfl

theorem windowAt_one (s : List Bool) (i : Nat) (hi : i < s.length) :
    windowAt s 1 i = [s.getD i false] := by
  rw [windowAt]
  have h1 : i + 1 - 1 = i := by omega
  rw [h1, List.drop_take, List.drop_eq_getElem_cons hi, List.getD_eq_getElem _ _ hi]
  have h3 : i + 1 - i = 1 := by omega
  rw [h3]
  rfl

/-- Claim C8: with a window of one frame, the rolling majority vote of
`decice_switch` is the identity on the current decision series, and the current
series is the raw per-frame comparison itself. -/
theorem decice_switch_window_one :
    (∀ s : List Bool, decice_rolling s 1 = s) ∧
    (∀ distMarked distUnmarked : List Rat,
      (decice_switch distMarked distUnmarked 1).current =
        decice_current distMarked distUnmarked ∧
      (decice_switch distMarked distUnmarked 1).rolling =
        (decice_switch distMarked distUnmarked 1).current) := by
  have hroll : ∀ s : List Bool, decice_rolling s 1 = s := by
    intro s
    have hlen : (decice_rolling s 1).length = s.length := by simp [decice_rolling]
    apply List.ext_getElem hlen
    intro i h1 h2
    rw [← List.getD_eq_getElem _ false h1, ← List.getD_eq_getElem _ false h2]
    rw [decice_rolling, List.getD_eq_getElem _ _ (by simpa using h2),
      List.getElem_map, List.getElem_range, windowAt_one s i h2, mode_first_single]
  exact ⟨hroll, fun dm du => ⟨rfl, hroll (decice_current dm du)⟩⟩

/-- Claim C10: whenever a rolling window holds exactly as many true as false
votes, the rolling majority output at that frame is false, because
`mode()[0]` picks the smallest modal value and 0 sorts before 1. -/
theorem decice_rolling_tie (s : List Bool) (w i : Nat) (hw : 0 < w)
    (hi : i < s.length)
    (htie : ((windowAt s w i).filter (fun x => x = true)).length =
      ((windowAt s w i).filter (fun x => x = false)).length) :
    (decice_rolling s w).getD i true = false := by
  rw [decice_rolling, List.getD_eq_getElem _ _ (by simpa using hi)]
  rw [List.getElem_map, List.getElem_range, mode_first, if_pos (le_of_eq htie)]

/-- Witness for C10 at a concrete series, window and frame. -/
theorem decice_rolling_tie_witness :
    (decice_rolling [true, false] 2).getD 1 true = false :=
  decice_rolling_tie [true, false] 2 1 (by decide) (by decide) (by decide)

/-! ## Keypoint tables and the analysis operations (`analyse.py`) -/

/-- A keypoint table: column labels `(individual, bodypart, coord)` and the
row-major cell values, one list per frame, aligned with `cols`. -/
structure KTable where
  cols : List (String × String × String)
  rows : List (List Rat)

/-- Row mean over selected columns (`.mean(axis=1)`); the empty mean is 0 in
this rational model. -/
def meanQ (l : List Rat) : Rat := l.sum / l.length

/-- Cell lookup by full column label within one frame (missing labels read 0). -/
def cellVal (cols : List (String × String × String)) (row : List Rat)
    (c : String × String × String) : Rat :=
  match (cols.zip row).find? (fun p => p.1 = c) with
  | some p => p.2
  | none => 0

/-- Square root on rationals, exact on perfect squares; models `np.sqrt`, which
this development only ever evaluates at perfect squares (in fact at 0). -/
def sqrtQ (q : Rat) : Rat := (Nat.sqrt q.num.toNat : Rat) / (Nat.sqrt q.den : Rat)

/-- Rolling mean over a trailing window with `min_periods=1`. -/
def rollingMeanQ (l : List Rat) (w : Nat) : List Rat :=
  (List.range l.length).map (fun i => meanQ ((l.take (i + 1)).drop (i + 1 - w)))

/-- Embedding of the per-frame `DistMM` column of `Analyse.social_distance`
(`analyse.py`), exactly as the source computes it: with
`idx_a = idx[indiv_b, bpts, "x"]` it takes
`(dlc_df.loc[:, idx_a] - dlc_df.loc[:, idx_a]).mean(axis=1)` — the selected
block minus itself — as `dist_x`, likewise `dist_y` from
`idx_b = idx[indiv_a, bpts, "y"]`, and stores
`sqrt(dist_x^2 + dist_y^2) / px_per_mm`. -/
def social_distance_DistMM (t : KTable) (indivA indivB : String)
    (bpts : List String) (px_per_mm : Rat) : List Rat :=
  (List.range t.rows.length).map (fun r =>
    sqrtQ ((meanQ (List.zipWith (fun a b => a - b)
        (bpts.map (fun bp => cellVal t.cols (t.rows.getD r []) (indivB, bp, "x")))
        (bpts.map (fun bp => cellVal t.cols (t.rows.getD r []) (indivB, bp, "x"))))) ^ 2 +
      (meanQ (List.zipWith (fun a b => a - b)
        (bpts.map (fun bp => cellVal t.cols (t.rows.getD r []) (indivA, bp, "y")))
        (bpts.map (fun bp => cellVal t.cols (t.rows.getD r []) (indivA, bp, "y"))))) ^ 2) /
      px_per_mm)

/-- The smoothed column `DistMMSmoothed` of `Analyse.social_distance`. -/
def social_distance_DistMMSmoothed (t : KTable) (indivA indivB : String)
    (bpts : List String) (px_per_mm : Rat) (smoothing_frames : Nat) : List Rat :=
  rollingMeanQ (social_distance_DistMM t indivA indivB bpts px_per_mm) smoothing_frames

theorem zipWith_sub_self (l : List Rat) :
    List.zipWith (fun a b => a - b) l l = List.replicate l.length 0 := by
  induction l with
  | nil => rfl
  | cons a l ih => simp [List.replicate_succ, ih]

theorem meanQ_replicate_zero (n : Nat) : meanQ (List.replicate n 0) = 0 := by
  rw [meanQ, List.sum_replicate]
  simp

theorem sqrtQ_zero : sqrtQ 0 = 0 := by
  rw [sqrtQ]
  norm_num

theorem rollingMeanQ_replicate_zero (n w : Nat) :
    rollingMeanQ (List.replicate n 0) w = List.replicate n 0 := by
  apply List.ext_getElem (by simp [rollingMeanQ])
  intro i hi1 hi2
  simp only [rollingMeanQ, List.length_replicate] at hi1 ⊢
  rw [List.getElem_map, List.getElem_range, List.take_replicate, List.drop_replicate,
    meanQ_replicate_zero, List.getElem_replicate]

/-- Claim C5 (code evaluation): the `DistMM` and `DistMMSmoothed` columns of
`Analyse.social_distance` are identically zero for every input table, bodypart
list and calibration, because the source subtracts each selected column block
from itself; they never equal the centroid distance the claim describes except
when that distance is itself zero. -/
theorem social_distance_always_zero (t : KTable) (indivA indivB : String)
    (bpts : List String) (px : Rat) (w : Nat) :
    social_distance_DistMM t indivA indivB bpts px =
      List.replicate t.rows.length 0 ∧
    social_distance_DistMMSmoothed t indivA indivB bpts px w =
      List.replicate t.rows.length 0 := by
  have h1 : social_distance_DistMM t indivA indivB bpts px =
      List.replicate t.rows.length 0 := by
    apply List.ext_getElem (by simp [social_distance_DistMM])
    intro i hi1 hi2
    simp only [social_distance_DistMM, List.length_map, List.length_range] at hi1 ⊢
    rw [List.getElem_map, List.getElem_range, zipWith_sub_self, zipWith_sub_self]
    simp only [List.length_map]
    rw [meanQ_replicate_zero, List.getElem_replicate]
    norm_num [sqrtQ_zero]
  refine ⟨h1, ?_⟩
  rw [social_distance_DistMMSmoothed, h1, rollingMeanQ_replicate_zero]

/-! ## Speed (`Analyse.speed`, `analyse.py`) -/

/-- Centered rolling mean of window 3 with `min_periods=1`: the jitter
smoothing `dlc_df.rolling(window=jitter_frames, center=True, min_periods=1)`
with the source's fixed `jitter_frames = 3`, covering frames `i-1`, `i`, `i+1`
clipped to the series. -/
def rollingCenter3 (l : List Rat) : List Rat :=
  (List.range l.length).map (fun i => meanQ ((l.take (i + 2)).drop (i - 1)))

/-- Pandas `bfill`: every NaN is replaced by the next non-NaN value at or below
it (staying NaN when none follows). -/
def bfillO (l : List (Option Rat)) : List (Option Rat) :=
  (List.range l.length).map (fun i => ((l.drop i).filterMap id).head?)

/-- Embedding of the per-individual `SpeedMMperSec` column of `Analyse.speed`
(`analyse.py`): smooth each referenced column with the centered 3-frame rolling
mean, average the chosen bodyparts' coordinates per frame, diff between
consecutive frames (NaN at frame 0), take the Euclidean delta, convert by
`px_per_mm` and `fps`, and back-fill the initial NaN. -/
def speed_SpeedMMperSec (t : KTable) (indiv : String) (bpts : List String)
    (px_per_mm fps : Rat) : List (Option Rat) :=
  let n := t.rows.length
  let col := fun (bp coord : String) =>
    rollingCenter3 ((List.range n).map (fun r =>
      cellVal t.cols (t.rows.getD r []) (indiv, bp, coord)))
  let sx := fun (r : Nat) => meanQ (bpts.map (fun bp => (col bp "x").getD r 0))
  let sy := fun (r : Nat) => meanQ (bpts.map (fun bp => (col bp "y").getD r 0))
  let raw : List (Option Rat) := (List.range n).map (fun r =>
    if r = 0 then none
    else some ((sqrtQ ((sx r - sx (r - 1)) ^ 2 + (sy r - sy (r - 1)) ^ 2) /
      px_per_mm) * fps))
  bfillO raw

/-- The two-frame table of the speed example: one individual, one bodypart,
moving from (0,0) px to (20,0) px. -/
def exSpeedTable : KTable :=
  ⟨[("subject", "centre", "x"), ("subject", "centre", "y")], [[0, 0], [20, 0]]⟩

/-- Claim C6 counterexample: on the spec's own two-frame example at 30 fps with
`px_per_mm = 2`, the code reports 0 mm/sec at frame 1, not the claimed
300 mm/sec, because the centered 3-frame jitter smoothing first averages both
frames to the same centroid. -/
theorem speed_example_counterexample :
    (speed_SpeedMMperSec exSpeedTable "subject" ["centre"] 2 30).getD 1 none ≠
      some 300 ∧
    (speed_SpeedMMperSec exSpeedTable "subject" ["centre"] 2 30).getD 1 none =
      some 0 := by
  have h : speed_SpeedMMperSec exSpeedTable "subject" ["centre"] 2 30 =
      [some 0, some 0] := by
    simp [speed_SpeedMMperSec, exSpeedTable, rollingCenter3, bfillO, cellVal, meanQ,
      sqrtQ, List.range_succ]
  rw [h]
  constructor
  · intro hc
    simp at hc
  · rfl

/-- Claim C6 as amended: on the two-frame example the speed operation reports
0 mm/sec at frame 1 (the centered 3-frame jitter smoothing maps both frames to
the same centroid before the diff), and frame 0 is back-filled with frame 1's
value. -/
theorem speed_example_amended :
    speed_SpeedMMperSec exSpeedTable "subject" ["centre"] 2 30 =
      [some 0, some 0] := by
  simp [speed_SpeedMMperSec, exSpeedTable, rollingCenter3, bfillO, cellVal, meanQ,
    sqrtQ, List.range_succ]

/-! ## Identity refinement (`Preprocess.refine_ids`, `preprocess.py`) -/

inductive Metric
  | current
  | rolling
  | binned

/-- The resolved configuration consumed by `refine_ids`. -/
structure RefineIdsConfig where
  marked : String
  unmarked : String
  marking : String
  bodyparts : List String
  window_frames : Nat
  metric : Metric

/-- Modelled from the spec: `KeypointsMixin.check_bpts_exist` of
`behavysis_core` (not under src/): per section 7, a configuration error is
raised when a bodypart referenced by the configuration does not exist among the
table's bodypart column labels. -/
def check_bpts_exist (bptLabels : List String) (bpts : List String) :
    Except String Unit :=
  match bpts.find? (fun bp => !(bptLabels.contains bp)) with
  | some bp => Except.error ("The bodypart " ++ bp ++ " is not in the DLC file.")
  | none => Except.ok ()

/-- The averaged-bodypart coordinate of one individual in one frame
(`df.loc[:, idx[l0, indiv, bpts, coord]].mean(axis=1)` in `aggregate_df`). -/
def centroidCoord (t : KTable) (r : Nat) (indiv : String) (bpts : List String)
    (coord : String) : Rat :=
  meanQ (bpts.map (fun bp => cellVal t.cols (t.rows.getD r []) (indiv, bp, coord)))

/-- Embedding of the distance column of `aggregate_df` (`preprocess.py`): the
squared distance between an individual's averaged-bodypart position and the
colour marking, whose coordinates live under the reserved individual label
"single".  The source stores `np.sqrt` of this quantity; its only consumer is
the strict comparison in `decice_switch`, which is invariant under the strictly
monotone square root on nonnegative values, so the exact square is stored. -/
def aggregate_dist2 (t : KTable) (marking indiv : String) (bpts : List String)
    (r : Nat) : Rat :=
  (centroidCoord t r indiv bpts "x" -
      cellVal t.cols (t.rows.getD r []) ("single", marking, "x")) ^ 2 +
    (centroidCoord t r indiv bpts "y" -
      cellVal t.cols (t.rows.getD r []) ("single", marking, "y")) ^ 2

/-- Group one frame of a keypoint table by individual, producing the block view
on which `switch_identities` operates. -/
def blockView (cols : List (String × String × String)) (row : List Rat) : Row :=
  ((cols.map (fun c => c.1)).dedup).map (fun ind =>
    (ind, ((cols.zip row).filter (fun p => p.1.1 = ind)).map (fun p => p.2)))

/-- Embedding of the core of `Preprocess.refine_ids` (`preprocess.py`) after
the file and configuration reads: the three column existence checks in source
order, each raising a `ValueError` before any computation so that no output is
written; then the modelled `check_bpts_exist`; then distance aggregation,
switch decision and identity switching on the block view of the table. -/
def refine_ids (t : KTable) (cfg : RefineIdsConfig) : Except String (List Row) :=
  if !((t.cols.map (fun c => c.1)).contains cfg.marked) then
    Except.error ("The marking value in the config file, " ++ cfg.marked ++
      ", is not a column name in the DLC file.")
  else if !((t.cols.map (fun c => c.1)).contains cfg.unmarked) then
    Except.error ("The marking value in the config file, " ++ cfg.unmarked ++
      ", is not a column name in the DLC file.")
  else if !((t.cols.map (fun c => c.2.1)).contains cfg.marking) then
    Except.error ("The marking value in the config file, " ++ cfg.marking ++
      ", is not a column name in the DLC file.")
  else
    match check_bpts_exist (t.cols.map (fun c => c.2.1)) cfg.bodyparts with
    | Except.error e => Except.error e
    | Except.ok _ =>
      let dm := (List.range t.rows.length).map
        (aggregate_dist2 t cfg.marking cfg.marked cfg.bodyparts)
      let du := (List.range t.rows.length).map
        (aggregate_dist2 t cfg.marking cfg.unmarked cfg.bodyparts)
      let sw := decice_switch dm du cfg.window_frames
      let swSeries := match cfg.metric with
        | Metric.current => sw.current
        | Metric.rolling => sw.rolling
        | Metric.binned => sw.binned
      Except.ok (switch_identities (t.rows.map (blockView t.cols)) swSeries
        cfg.marked cfg.unmarked)

/-- Claim C3: `refine_ids` raises a configuration error (a `ValueError`,
modelled as `Except.error`, returned before any computation, so no output is
written) whenever the configured marked individual, unmarked individual or
marking bodypart is missing from the table's column labels; when every
referenced column (including the configured bodyparts) exists, no such error is
raised and an output is produced. -/
theorem refine_ids_config_check (t : KTable) (cfg : RefineIdsConfig) :
    ((cfg.marked ∉ t.cols.map (fun c => c.1) ∨
      cfg.unmarked ∉ t.cols.map (fun c => c.1) ∨
      cfg.marking ∉ t.cols.map (fun c => c.2.1)) →
      ∃ e, refine_ids t cfg = Except.error e) ∧
    ((cfg.marked ∈ t.cols.map (fun c => c.1) ∧
      cfg.unmarked ∈ t.cols.map (fun c => c.1) ∧
      cfg.marking ∈ t.cols.map (fun c => c.2.1) ∧
      ∀ bp ∈ cfg.bodyparts, bp ∈ t.cols.map (fun c => c.2.1)) →
      ∃ out, refine_ids t cfg = Except.ok out) := by
  constructor
  · intro hmiss
    rw [refine_ids]
    by_cases h1 : (t.cols.map (fun c => c.1)).contains cfg.marked
    · rw [if_neg (by simp_all)]
      by_cases h2 : (t.cols.map (fun c => c.1)).contains cfg.unmarked
      · rw [if_neg (by simp_all)]
        by_cases h3 : (t.cols.map (fun c => c.2.1)).contains cfg.marking
        · exfalso
          rcases hmiss with h | h | h
          · exact h (by simpa using h1)
          · exact h (by simpa using h2)
          · exact h (by simpa using h3)
        · rw [if_pos (by simp_all)]
          exact ⟨_, rfl⟩
      · rw [if_pos (by simp_all)]
        exact ⟨_, rfl⟩
    · rw [if_pos (by simp_all)]
      exact ⟨_, rfl⟩
  · rintro ⟨hm, hu, hk, hb⟩
    rw [refine_ids]
    rw [if_neg (by simpa using hm), if_neg (by simpa using hu),
      if_neg (by simpa using hk)]
    have hok : check_bpts_exist (t.cols.map (fun c => c.2.1)) cfg.bodyparts =
        Except.ok () := by
      rw [check_bpts_exist]
      have hnone : cfg.bodyparts.find?
          (fun bp => !((t.cols.map (fun c => c.2.1)).contains bp)) = none :=
        List.find?_eq_none.mpr (fun bp hbp => by simpa using hb bp hbp)
      rw [hnone]
    rw [hok]
    exact ⟨_, rfl⟩

/-- A concrete keypoint table for the C3 witness. -/
def exRefineTable : KTable :=
  ⟨[("m1", "nose", "x"), ("m2", "nose", "x"), ("single", "mark", "x")],
    [[1, 2, 3]]⟩

/-- A well-formed configuration for the C3 witness. -/
def exRefineCfgGood : RefineIdsConfig :=
  ⟨"m1", "m2", "mark", ["nose"], 1, Metric.current⟩

/-- A configuration whose marked individual is missing, for the C3 witness. -/
def exRefineCfgBad : RefineIdsConfig :=
  ⟨"zz", "m2", "mark", ["nose"], 1, Metric.current⟩

/-- Witness for C3: the missing-column configuration errors out and the
well-formed configuration succeeds on a concrete table. -/
theorem refine_ids_config_check_witness :
    (∃ e, refine_ids exRefineTable exRefineCfgBad = Except.error e) ∧
    (∃ out, refine_ids exRefineTable exRefineCfgGood = Except.ok out) :=
  ⟨(refine_ids_config_check exRefineTable exRefineCfgBad).1 (Or.inl (by decide)),
    (refine_ids_config_check exRefineTable exRefineCfgGood).2 (by decide)⟩

end BaPipeline
